import Mathlib

/-!
A verification development for a retrieval-augmented generation pipeline:
a recursive, overlap-aware text splitter, an in-memory vector index with
similarity search, and a two-node retrieve/generate orchestration pipeline
with synchronous, step-streaming and token-streaming execution modes.

The concrete library classes used by the notebooks
(`RecursiveCharacterTextSplitter`, `InMemoryVectorStore`, the compiled
`StateGraph`) are external dependencies, so the definitions below embed
them as described by the system specification; each such definition
carries a doc comment saying what it models.
-/

/-- Character-level text, the content type of documents and chunks. -/
abbrev Text := List Char

/-- Modelled from the spec: the `Document` record of the data model
(the library class `langchain_core.documents.Document` is not part of
this repository). `content` is the text and `startIndex` is the offset
in the source content recorded by the splitter when position tracking
is enabled. -/
structure Document where
  content : Text
  startIndex : Option Nat
deriving DecidableEq

/-- The sliceAt of `t` of length `n` that starts at offset `s`. -/
def sliceAt (t : Text) (s n : Nat) : Text := (t.drop s).take n

/-- The last `n` characters of `t`. -/
def takeRight (n : Nat) (t : Text) : Text := t.drop (t.length - n)

/-- `occursAt sep t j` states that the separator `sep` occurs in `t` at offset `j`. -/
def occursAt (sep t : Text) (j : Nat) : Prop := (t.drop j).take sep.length = sep

instance (sep t : Text) (j : Nat) : Decidable (occursAt sep t j) := by
  unfold occursAt; infer_instance

/-- Offset of the first occurrence of `sep` in `t`, if any. -/
def firstOcc (sep : Text) : Text → Option Nat
  | [] => if sep = [] then some 0 else none
  | c :: t =>
    if (c :: t).take sep.length = sep then some 0
    else (firstOcc sep t).map (· + 1)

/-- Splits `t` after every occurrence of the non-empty separator `sep`,
keeping the separator attached to the preceding piece, so that the pieces
concatenate back to `t`. `fuel` bounds the recursion depth. -/
def splitNEAux (sep : Text) : Nat → Text → List Text
  | 0, t => [t]
  | fuel + 1, t =>
    match firstOcc sep t with
    | none => [t]
    | some i =>
      if i + sep.length < t.length then
        t.take (i + sep.length) :: splitNEAux sep fuel (t.drop (i + sep.length))
      else [t]

/-- Modelled from the spec: one splitting step of the recursive character
splitter (the library `langchain_text_splitters` is not in this
repository). An empty separator means character-level splitting; a
non-empty separator cuts the text after each of its occurrences. -/
def splitSep (sep t : Text) : List Text :=
  if sep = [] then t.map (fun c => [c]) else splitNEAux sep t.length t

/-- Modelled from the spec: the recursive re-splitting pass of the
splitter algorithm. Separators are attempted in rank order; any piece
still exceeding the chunk size `S` is re-split with the next separator
in the ranking, and a piece that no separator can break is left intact. -/
def splitLevels (S : Nat) : List Text → List Text → List Text
  | [], ts => ts
  | sep :: rest, ts =>
    splitLevels S rest
      ((ts.map (fun p => if p.length ≤ S then [p] else splitSep sep p)).flatten)

/-- All candidate pieces of `t` after every separator rank has been applied. -/
def splitPieces (S : Nat) (seps : List Text) (t : Text) : List Text :=
  splitLevels S seps [t]

/-- Modelled from the spec: the merge phase of the splitter algorithm.
Adjacent small pieces are merged up to the chunk size `S`; when a chunk
is emitted, the next chunk starts with an overlap window taken from the
tail of the emitted chunk — at most `O` characters, shrunk when the piece
that begins the next chunk leaves less room within `S`; a piece longer
than `S` that could not be split further is emitted intact, and no
overlap window is carried out of it, since it was never accumulated.
Every emitted chunk is paired with its start offset in the original
content, tracked by a forward-only cursor. -/
def mergeSplits (S O : Nat) : List Text → Text → Nat → List (Text × Nat)
  | [], cur, pos => if cur = [] then [] else [(cur, pos)]
  | p :: ps, cur, pos =>
    if cur.length + p.length ≤ S then
      mergeSplits S O ps (cur ++ p) pos
    else if p.length ≤ S then
      (cur, pos) ::
        mergeSplits S O ps
          (takeRight (min (min O cur.length) (S - p.length)) cur ++ p)
          (pos + cur.length - min (min O cur.length) (S - p.length))
    else
      (if cur = [] then [] else [(cur, pos)]) ++
        (p, pos + cur.length) ::
          mergeSplits S O ps [] (pos + cur.length + p.length)

/-- Configuration errors raised synchronously to the caller. -/
inductive InputError
  | invalidChunkOverlap
  | missingTemplateSlot
deriving DecidableEq

/-- Modelled from the spec: the splitter configuration of
`RecursiveCharacterTextSplitter(chunk_size, chunk_overlap, ...)` as used
by the notebook; the library class itself is not in this repository. -/
structure RecursiveCharacterTextSplitter where
  chunk_size : Nat
  chunk_overlap : Nat
  separators : List Text
deriving DecidableEq

/-- Modelled from the spec: constructing a splitter validates the
configuration; `chunk_overlap ≥ chunk_size` is an `InputError` surfaced
immediately at call time, never silently corrected. -/
def mkSplitter (S O : Nat) (seps : List Text) :
    Except InputError RecursiveCharacterTextSplitter :=
  if S ≤ O then .error .invalidChunkOverlap else .ok ⟨S, O, seps⟩

/-- Modelled from the spec: the full split of one content string into
chunks paired with their start offsets (`add_start_index` tracking). -/
def RecursiveCharacterTextSplitter.split_text
    (cfg : RecursiveCharacterTextSplitter) (t : Text) : List (Text × Nat) :=
  mergeSplits cfg.chunk_size cfg.chunk_overlap
    (splitPieces cfg.chunk_size cfg.separators t) [] 0

/-- Modelled from the spec: `split_documents` maps the splitter over a
document list, producing chunk documents carrying their start offsets. -/
def RecursiveCharacterTextSplitter.split_documents
    (cfg : RecursiveCharacterTextSplitter) (docs : List Document) : List Document :=
  (docs.map (fun d =>
    (cfg.split_text d.content).map (fun cs => Document.mk cs.1 (some cs.2)))).flatten

/-- An embedding vector; the provider fixes the dimensionality. -/
abbrev EmbeddingVector := List Int

/-- Index-state errors raised synchronously to the caller. -/
inductive IndexError
  | indexEmpty
  | dimensionMismatch
deriving DecidableEq

/-- Modelled from the spec: the in-memory vector index
(`langchain_core.vectorstores.InMemoryVectorStore` is not in this
repository). `embedding` is the external embedding provider; `similarity`
is the vector similarity used for scoring — cosine by default per the
spec, kept configurable as the spec mandates, so it is a field here.
`entries` keeps insertion order and the ids already assigned. -/
structure InMemoryVectorStore where
  embedding : Text → EmbeddingVector
  similarity : EmbeddingVector → EmbeddingVector → Int
  entries : List (Nat × EmbeddingVector × Document)
  nextId : Nat

/-- Modelled from the spec: `add_documents` embeds each document, assigns
fresh sequential ids (stable, never reused) and appends the entries in
insertion order. -/
def InMemoryVectorStore.add_documents
    (vs : InMemoryVectorStore) (docs : List Document) :
    InMemoryVectorStore × List Nat :=
  let ids := (List.range docs.length).map (· + vs.nextId)
  ({ vs with
      entries := vs.entries ++
        List.zipWith (fun i d => (i, vs.embedding d.content, d)) ids docs,
      nextId := vs.nextId + docs.length },
   ids)

/-- Every stored entry scored against the query embedding, paired with its
insertion position (used for deterministic tie-breaking). -/
def scoredEntries (vs : InMemoryVectorStore) (q : Text) :
    List (Int × Nat × Document) :=
  vs.entries.enum.map (fun ie => (vs.similarity (vs.embedding q) ie.2.2.1, ie.1, ie.2.2.2))

/-- Ranking order of scored entries: higher score first, ties broken by
insertion position (earliest-added wins). -/
def ranksBefore : (Int × Nat × Document) → (Int × Nat × Document) → Prop :=
  fun a b => b.1 < a.1 ∨ (a.1 = b.1 ∧ a.2.1 ≤ b.2.1)

instance : DecidableRel ranksBefore := fun a b => by
  unfold ranksBefore; infer_instance

instance : IsTotal (Int × Nat × Document) ranksBefore :=
  ⟨fun a b => by unfold ranksBefore; omega⟩

instance : IsTrans (Int × Nat × Document) ranksBefore :=
  ⟨fun a b c ha hb => by unfold ranksBefore at *; omega⟩

/-- All scored entries sorted into ranking order. -/
def rankedEntries (vs : InMemoryVectorStore) (q : Text) :
    List (Int × Nat × Document) :=
  List.insertionSort ranksBefore (scoredEntries vs q)

/-- Modelled from the spec: `similarity_search` embeds the query, scores
every stored entry, and returns the top `k` documents by descending
score, ties broken by insertion order; it fails with `IndexError` when
the index holds no entries. -/
def InMemoryVectorStore.similarity_search
    (vs : InMemoryVectorStore) (q : Text) (k : Nat) :
    Except IndexError (List Document) :=
  if vs.entries = [] then .error .indexEmpty
  else .ok (((rankedEntries vs q).take k).map (fun e => e.2.2))

/-- The pipeline state of src/05_rag.ipynb (`class State(TypedDict)`):
the input question, the retrieved context, and the answer, which stays
unset until generation completes. -/
structure State where
  question : Text
  context : List Document
  answer : Option Text
deriving DecidableEq

/-- The cause of a node failure: an index error surfaced by the store,
or a Python `NameError` from evaluating a global name that the notebook
never binds. -/
inductive ErrCause
  | indexError (e : IndexError)
  | nameError (n : String)
deriving DecidableEq

/-- An error re-surfaced by the orchestrator, annotated with the name of
the failing node and the original cause. -/
structure NodeError where
  node : String
  cause : ErrCause
deriving DecidableEq

/-- Modelled from the spec: the external chat-model object (the
`ChatGoogleGenerativeAI` instance is not in this repository) — its
blocking call and its streaming variant producing a finite sequence of
text increments. -/
structure RagEnv where
  generate : Text → Text
  generateStream : Text → List Text

/-- The notebook's global bindings of chat-model objects by name:
src/05_rag.ipynb binds the chat model as `model`
(`model = ChatGoogleGenerativeAI(...)`); no other name is ever bound to
it — in particular the name `llm` is unbound. -/
def modelBindings (env : RagEnv) : String → Option RagEnv :=
  fun n => if n = "model" then some env else none

/-- The blank-line join of the retrieved chunk contents performed by the
generate node of src/05_rag.ipynb
(`"\n\n".join(doc.page_content for doc in state["context"])`). -/
def docsContent (ctx : List Document) : Text :=
  (List.intersperse ['\n', '\n'] (ctx.map (fun d => d.content))).flatten

/-- Modelled from the spec: the two-slot prompt template (the hub prompt
`rlm/rag-prompt` is external); it fills the `question` and `context`
slots into one generation request. -/
def ragPrompt (question context : Text) : Text :=
  ("Question: ").toList ++ question ++ ("\nContext: ").toList ++ context ++
    ("\nAnswer:").toList

/-- The `retrieve` node of src/05_rag.ipynb: a similarity search for the
question with the store's default retrieval parameter `k = 4`; its
partial update is the retrieved context. -/
def retrieve (vs : InMemoryVectorStore) (st : State) :
    Except NodeError (List Document) :=
  match vs.similarity_search st.question 4 with
  | .error e => .error ⟨"retrieve", .indexError e⟩
  | .ok docs => .ok docs

/-- The `generate` node of src/05_rag.ipynb: it joins the retrieved
context, fills the prompt, and evaluates `llm.invoke(messages)` — but
the notebook binds the chat model to the name `model` and never defines
`llm`, so the name lookup fails: the node always raises a `NameError`
and never produces an answer. -/
def generate (env : RagEnv) (st : State) : Except NodeError Text :=
  match modelBindings env "llm" with
  | some m => .ok (m.generate (ragPrompt st.question (docsContent st.context)))
  | none => .error ⟨"generate", .nameError "llm"⟩

/-- Modelled from the spec: synchronous full-run execution of the
compiled two-node graph (`graph.invoke`; the langgraph engine is not in
this repository): runs the notebook's `retrieve` and `generate` nodes in
order, merging each partial update into the state, and returns the final
state or the annotated terminal error. -/
def invoke (env : RagEnv) (vs : InMemoryVectorStore) (question : Text) :
    Except NodeError State :=
  match retrieve vs ⟨question, [], none⟩ with
  | .error e => .error e
  | .ok ctx =>
    let st : State := ⟨question, ctx, none⟩
    match generate env st with
    | .error e => .error e
    | .ok ans => .ok { st with answer := some ans }

/-- A partial update produced by one pipeline node: only the key that
node declares. -/
inductive StepUpdate
  | retrieveUpdate (context : List Document)
  | generateUpdate (answer : Text)
deriving DecidableEq

/-- One item of a step stream: a node's partial update, or the explicit
error marker terminating the stream on failure. -/
inductive StreamItem
  | update (u : StepUpdate)
  | errorMarker (e : NodeError)
deriving DecidableEq

/-- Modelled from the spec: step-streaming execution of the compiled
graph (`graph.stream(stream_mode="updates")`): yields each node's
partial update as it completes, in pipeline order, and stops with an
error marker on failure without yielding later nodes' increments. -/
def stream_updates (env : RagEnv) (vs : InMemoryVectorStore)
    (question : Text) : List StreamItem :=
  match retrieve vs ⟨question, [], none⟩ with
  | .error e => [.errorMarker e]
  | .ok ctx =>
    let st : State := ⟨question, ctx, none⟩
    .update (.retrieveUpdate ctx) ::
      (match generate env st with
       | .error e => [.errorMarker e]
       | .ok ans => [.update (.generateUpdate ans)])

/-- Modelled from the spec: token-streaming execution of the compiled
graph (`graph.stream(stream_mode="messages")`): during the generate node
the resolved chat model's text increments are forwarded to the caller
one by one; on failure the stream is terminated by the error marker —
in this notebook the generate node's name lookup of `llm` fails before
any token is produced. -/
def stream_messages (env : RagEnv) (vs : InMemoryVectorStore)
    (question : Text) : List (Except NodeError Text) :=
  match retrieve vs ⟨question, [], none⟩ with
  | .error e => [.error e]
  | .ok ctx =>
    let st : State := ⟨question, ctx, none⟩
    match modelBindings env "llm" with
    | some m =>
      (m.generateStream (ragPrompt st.question (docsContent st.context))).map .ok
    | none => [.error ⟨"generate", .nameError "llm"⟩]

/-- The text increments of a token stream, without error markers. -/
def textIncrements (l : List (Except NodeError Text)) : List Text :=
  l.filterMap (fun x => x.toOption)

/-- A deterministic mock embedding provider for concrete runs: it embeds
a text as the one-dimensional vector holding its length. -/
def lengthEmbedding : Text → EmbeddingVector := fun t => [Int.ofNat t.length]

/-- A deterministic mock similarity for concrete runs: the product of the
leading coordinates. -/
def headSimilarity : EmbeddingVector → EmbeddingVector → Int :=
  fun a b => a.headD 0 * b.headD 0

/-- A concrete store holding no entries. -/
def emptyStore : InMemoryVectorStore :=
  ⟨lengthEmbedding, headSimilarity, [], 0⟩

/-- A concrete populated store used to exercise the search and pipeline
theorems on closed inputs. -/
def sampleStore : InMemoryVectorStore :=
  (emptyStore.add_documents
    [⟨('T' :: ['a', 's', 'k']), none⟩, ⟨('P' :: ['l', 'a', 'n']), none⟩]).1

/-- A deterministic mock generator environment whose blocking call agrees
with the concatenation of its streamed increments and always produces
non-empty text. -/
def mockEnv : RagEnv :=
  ⟨fun p => 'A' :: p, fun p => [['A'], p]⟩

/-! ### Basic facts about slices, overlap windows and occurrences -/

theorem takeRight_length (n : Nat) (t : Text) :
    (takeRight n t).length = t.length - (t.length - n) := by
  simp [takeRight]

theorem sliceAt_append (t : Text) (s n m : Nat) :
    sliceAt t s n ++ sliceAt t (s + n) m = sliceAt t s (n + m) := by
  unfold sliceAt
  rw [List.take_add]
  congr 1
  rw [List.drop_drop]

theorem sliceAt_zero_len (t : Text) (s : Nat) : sliceAt t s 0 = [] := by
  simp [sliceAt]

theorem sliceAt_drop (t : Text) (s n a : Nat) :
    (sliceAt t s n).drop a = sliceAt t (s + a) (n - a) := by
  unfold sliceAt
  rw [List.drop_take, List.drop_drop]

theorem takeRight_sliceAt (t cur : Text) (pos w : Nat)
    (hcur : cur = sliceAt t pos cur.length) (hw : w ≤ cur.length) :
    takeRight w cur = sliceAt t (pos + cur.length - w) w := by
  unfold takeRight
  rw [hcur]
  have hlen : (sliceAt t pos cur.length).length = cur.length := by rw [← hcur]
  rw [hlen, sliceAt_drop]
  have h1 : cur.length - (cur.length - w) = w := by omega
  have h2 : pos + (cur.length - w) = pos + cur.length - w := by omega
  rw [h1, h2]

theorem sliceAt_of_drop_eq (t p rest : Text) (s : Nat)
    (h : t.drop s = p ++ rest) : sliceAt t s p.length = p := by
  unfold sliceAt
  rw [h, List.take_left]

theorem occursAt_nil (sep : Text) (j : Nat) (h : occursAt sep [] j) :
    sep = [] := by
  unfold occursAt at h
  simpa using h.symm

theorem occursAt_length (sep t : Text) (j : Nat) (h : occursAt sep t j) :
    j + sep.length ≤ t.length ∨ sep = [] := by
  unfold occursAt at h
  have hlen := congrArg List.length h
  simp [List.length_take, List.length_drop] at hlen
  rcases Nat.eq_zero_or_pos sep.length with h0 | h0
  · right
    exact List.length_eq_zero.mp h0
  · left
    omega

theorem occursAt_cons_succ (sep : Text) (c : Char) (t : Text) (j : Nat) :
    occursAt sep (c :: t) (j + 1) ↔ occursAt sep t j := by
  simp [occursAt]

theorem occursAt_drop (sep t : Text) (a j : Nat)
    (h : occursAt sep (t.drop a) j) : occursAt sep t (a + j) := by
  unfold occursAt at *
  rwa [List.drop_drop] at h

theorem occursAt_take (sep t : Text) (hsep : sep ≠ []) (k j : Nat)
    (h : occursAt sep (t.take k) j) :
    occursAt sep t j ∧ j + sep.length ≤ k := by
  unfold occursAt at *
  rw [List.drop_take, List.take_take] at h
  have hlen := congrArg List.length h
  simp [List.length_take, List.length_drop] at hlen
  have hs : 0 < sep.length := List.length_pos.mpr hsep
  have hmin : min sep.length (k - j) = sep.length := by omega
  rw [hmin] at h
  exact ⟨h, by omega⟩

theorem firstOcc_none (sep : Text) :
    ∀ t : Text, firstOcc sep t = none → ∀ j, ¬ occursAt sep t j := by
  intro t
  induction t with
  | nil =>
    intro h j hj
    have hs := occursAt_nil sep j hj
    simp [firstOcc, hs] at h
  | cons c t ih =>
    intro h j hj
    unfold firstOcc at h
    by_cases hhead : (c :: t).take sep.length = sep
    · simp [hhead] at h
    · simp [hhead] at h
      match j with
      | 0 =>
        exact hhead hj
      | j + 1 =>
        exact ih h j ((occursAt_cons_succ sep c t j).mp hj)

theorem firstOcc_some (sep : Text) :
    ∀ t : Text, ∀ i : Nat, firstOcc sep t = some i →
      occursAt sep t i ∧ ∀ j, j < i → ¬ occursAt sep t j := by
  intro t
  induction t with
  | nil =>
    intro i h
    by_cases hs : sep = []
    · simp [firstOcc, hs] at h
      subst h
      refine ⟨?_, by omega⟩
      simp [occursAt, hs]
    · simp [firstOcc, hs] at h
  | cons c t ih =>
    intro i h
    unfold firstOcc at h
    by_cases hhead : (c :: t).take sep.length = sep
    · simp [hhead] at h
      subst h
      exact ⟨hhead, by omega⟩
    · simp [hhead] at h
      obtain ⟨i', hi', rfl⟩ := h
      obtain ⟨hocc, hmin⟩ := ih i' hi'
      refine ⟨(occursAt_cons_succ sep c t i').mpr hocc, ?_⟩
      intro j hj hjocc
      match j with
      | 0 => exact hhead hjocc
      | j + 1 =>
        exact hmin j (by omega) ((occursAt_cons_succ sep c t j).mp hjocc)

/-! ### The separator split: pieces concatenate back, and every occurrence
of the separator inside a piece ends at the piece's end -/

theorem splitNEAux_flatten (sep : Text) (hsep : sep ≠ []) :
    ∀ fuel t, t.length ≤ fuel → (splitNEAux sep fuel t).flatten = t := by
  intro fuel
  induction fuel with
  | zero => intro t ht; simp [splitNEAux]
  | succ fuel ih =>
    intro t ht
    unfold splitNEAux
    cases hf : firstOcc sep t with
    | none => simp
    | some i =>
      by_cases hk : i + sep.length < t.length
      · have hs : 0 < sep.length := List.length_pos.mpr hsep
        simp only [hk, if_true, List.flatten_cons]
        rw [ih (t.drop (i + sep.length)) (by simp [List.length_drop]; omega)]
        exact List.take_append_drop _ t
      · simp [hk]

theorem splitNEAux_occ_end (sep : Text) (hsep : sep ≠ []) :
    ∀ fuel t, t.length ≤ fuel → ∀ p ∈ splitNEAux sep fuel t,
      ∀ j, occursAt sep p j → j + sep.length = p.length := by
  intro fuel
  induction fuel with
  | zero =>
    intro t ht p hp j hj
    have ht0 : t = [] := List.length_eq_zero.mp (by omega)
    subst ht0
    simp [splitNEAux] at hp
    subst hp
    exact absurd (occursAt_nil sep j hj) hsep
  | succ fuel ih =>
    intro t ht p hp j hj
    have hs : 0 < sep.length := List.length_pos.mpr hsep
    unfold splitNEAux at hp
    cases hf : firstOcc sep t with
    | none =>
      rw [hf] at hp
      simp at hp
      subst hp
      exact absurd hj (firstOcc_none sep p hf j)
    | some i =>
      rw [hf] at hp
      obtain ⟨hocc, hmin⟩ := firstOcc_some sep t i hf
      by_cases hk : i + sep.length < t.length
      · simp only [hk, if_true, List.mem_cons] at hp
        rcases hp with hp | hp
        · subst hp
          obtain ⟨hjt, hjk⟩ := occursAt_take sep t hsep (i + sep.length) j hj
          have hji : ¬ j < i := fun hlt => hmin j hlt hjt
          have hje : j = i := by omega
          subst hje
          have hplen : (t.take (j + sep.length)).length = j + sep.length := by
            simp [List.length_take]; omega
          omega
        · exact ih (t.drop (i + sep.length)) (by simp [List.length_drop]; omega) p hp j hj
      · simp only [hk, if_false, List.mem_singleton] at hp
        subst hp
        have hji : ¬ j < i := fun hlt => hmin j hlt hj
        rcases occursAt_length sep p j hj with hl | hl
        · rcases occursAt_length sep p i hocc with hl2 | hl2
          · omega
          · exact absurd hl2 hsep
        · exact absurd hl hsep

theorem splitSep_flatten (sep t : Text) : (splitSep sep t).flatten = t := by
  unfold splitSep
  by_cases hsep : sep = []
  · simp only [hsep, if_true]
    induction t with
    | nil => rfl
    | cons c t ih => simp_all
  · simp only [hsep, if_false]
    exact splitNEAux_flatten sep hsep t.length t le_rfl

theorem splitSep_occ_end (sep t : Text) (hsep : sep ≠ []) :
    ∀ p ∈ splitSep sep t, ∀ j, occursAt sep p j → j + sep.length = p.length := by
  intro p hp
  unfold splitSep at hp
  rw [if_neg hsep] at hp
  exact splitNEAux_occ_end sep hsep t.length t le_rfl p hp

theorem splitSep_eq_self_of_occ_end (sep q : Text) (hsep : sep ≠ [])
    (hend : ∀ j, occursAt sep q j → j + sep.length = q.length) :
    splitSep sep q = [q] := by
  unfold splitSep
  rw [if_neg hsep]
  by_cases hq : q = []
  · subst hq; rfl
  · obtain ⟨n, hn⟩ : ∃ n, q.length = n + 1 :=
      ⟨q.length - 1, by have := List.length_pos.mpr hq; omega⟩
    rw [hn]
    unfold splitNEAux
    cases hf : firstOcc sep q with
    | none => simp
    | some i =>
      obtain ⟨hocc, _⟩ := firstOcc_some sep q i hf
      have : i + sep.length = q.length := hend i hocc
      have hnotlt : ¬ i + sep.length < q.length := by omega
      simp [hnotlt]

theorem occ_end_of_infix (sep q p : Text) (hsep : sep ≠ [])
    (hinf : q <:+: p)
    (hend : ∀ j, occursAt sep p j → j + sep.length = p.length) :
    ∀ j, occursAt sep q j → j + sep.length = q.length := by
  obtain ⟨s, u, rfl⟩ := hinf
  intro j hj
  have hdrop : (s ++ q ++ u).drop s.length = q ++ u := by
    rw [List.append_assoc, List.drop_left]
  have hqform : ((s ++ q ++ u).drop s.length).take q.length = q := by
    rw [hdrop, List.take_left]
  have hj' : occursAt sep ((s ++ q ++ u).drop s.length) j ∧ j + sep.length ≤ q.length := by
    have := occursAt_take sep ((s ++ q ++ u).drop s.length) hsep q.length j (by rwa [hqform])
    exact this
  have hocc : occursAt sep (s ++ q ++ u) (s.length + j) := occursAt_drop _ _ _ _ hj'.1
  have := hend (s.length + j) hocc
  have hlen : (s ++ q ++ u).length = s.length + q.length + u.length := by
    simp [List.length_append]; omega
  omega

/-! ### The recursive re-splitting pass -/

theorem splitLevels_flatten (S : Nat) :
    ∀ seps ts, (splitLevels S seps ts).flatten = ts.flatten := by
  intro seps
  induction seps with
  | nil => intro ts; rfl
  | cons sep rest ih =>
    intro ts
    unfold splitLevels
    rw [ih]
    induction ts with
    | nil => rfl
    | cons p ts ih2 =>
      simp only [List.map_cons, List.flatten_cons, List.flatten_append]
      rw [ih2]
      congr 1
      by_cases hp : p.length ≤ S
      · simp [hp]
      · simp only [hp, if_false]
        exact splitSep_flatten sep p

theorem splitLevels_infix (S : Nat) :
    ∀ seps ts q, q ∈ splitLevels S seps ts → ∃ p ∈ ts, q <:+: p := by
  intro seps
  induction seps with
  | nil => intro ts q hq; exact ⟨q, hq, List.infix_refl q⟩
  | cons sep rest ih =>
    intro ts q hq
    unfold splitLevels at hq
    obtain ⟨p', hp', hinf⟩ := ih _ q hq
    rw [List.mem_flatten] at hp'
    obtain ⟨l, hl, hp'l⟩ := hp'
    rw [List.mem_map] at hl
    obtain ⟨p, hp, rfl⟩ := hl
    by_cases hps : p.length ≤ S
    · simp only [hps, if_true, List.mem_singleton] at hp'l
      subst hp'l
      exact ⟨p', hp, hinf⟩
    · simp only [hps, if_false] at hp'l
      have : p' <:+: p := by
        have h1 := List.infix_of_mem_flatten hp'l
        rwa [splitSep_flatten sep p] at h1
      exact ⟨p, hp, hinf.trans this⟩

theorem splitLevels_oversize (S : Nat) :
    ∀ seps ts q, q ∈ splitLevels S seps ts → S < q.length →
      ∀ sep ∈ seps, splitSep sep q = [q] := by
  intro seps
  induction seps with
  | nil => intro ts q _ _ sep hsep; exact absurd hsep (List.not_mem_nil sep)
  | cons sep rest ih =>
    intro ts q hq hbig sep' hsep'
    unfold splitLevels at hq
    rcases List.mem_cons.mp hsep' with hsep' | hsep'
    · subst hsep'
      obtain ⟨p', hp', hinf⟩ := splitLevels_infix S rest _ q hq
      rw [List.mem_flatten] at hp'
      obtain ⟨l, hl, hp'l⟩ := hp'
      rw [List.mem_map] at hl
      obtain ⟨p, _, rfl⟩ := hl
      by_cases hps : p.length ≤ S
      · simp only [hps, if_true, List.mem_singleton] at hp'l
        subst hp'l
        have := hinf.length_le
        omega
      · simp only [hps, if_false] at hp'l
        by_cases hsep0 : sep' = []
        · subst hsep0
          unfold splitSep at hp'l
          simp only [if_true] at hp'l
          rw [List.mem_map] at hp'l
          obtain ⟨c, _, rfl⟩ := hp'l
          have hlen := hinf.length_le
          simp at hlen
          have hq1 : q.length = 1 := by omega
          have hqeq : q = [c] := hinf.eq_of_length (by simpa using hq1)
          subst hqeq
          rfl
        · have hendp' : ∀ j, occursAt sep' p' j → j + sep'.length = p'.length :=
            splitSep_occ_end sep' p hsep0 p' hp'l
          have hendq := occ_end_of_infix sep' q p' hsep0 hinf hendp'
          exact splitSep_eq_self_of_occ_end sep' q hsep0 hendq
    · exact ih _ q hq hbig sep' hsep'

/-! ### The merge phase: size bounds, positions, slices, overlap -/

theorem merge_size (S O : Nat) :
    ∀ ps cur pos, cur.length ≤ S →
      ∀ cs ∈ mergeSplits S O ps cur pos,
        cs.1.length ≤ S ∨ (S < cs.1.length ∧ cs.1 ∈ ps) := by
  intro ps
  induction ps with
  | nil =>
    intro cur pos hc cs hcs
    unfold mergeSplits at hcs
    by_cases h : cur = []
    · simp [h] at hcs
    · simp [h] at hcs
      subst hcs
      exact Or.inl hc
  | cons p ps ih =>
    intro cur pos hc cs hcs
    unfold mergeSplits at hcs
    by_cases hb1 : cur.length + p.length ≤ S
    · rw [if_pos hb1] at hcs
      rcases ih (cur ++ p) pos (by simp; omega) cs hcs with h | h
      · exact Or.inl h
      · exact Or.inr ⟨h.1, List.mem_cons_of_mem p h.2⟩
    · rw [if_neg hb1] at hcs
      by_cases hb2 : p.length ≤ S
      · rw [if_pos hb2] at hcs
        rcases List.mem_cons.mp hcs with hcs | hcs
        · subst hcs
          exact Or.inl hc
        · have hlen :
              (takeRight (min (min O cur.length) (S - p.length)) cur ++ p).length ≤ S := by
            simp [List.length_append, takeRight_length]
            omega
          rcases ih _ _ hlen cs hcs with h | h
          · exact Or.inl h
          · exact Or.inr ⟨h.1, List.mem_cons_of_mem p h.2⟩
      · rw [if_neg hb2] at hcs
        rw [List.mem_append] at hcs
        rcases hcs with hcs | hcs
        · by_cases h3 : cur = []
          · simp [h3] at hcs
          · simp [h3] at hcs
            subst hcs
            exact Or.inl hc
        · rcases List.mem_cons.mp hcs with hcs | hcs
          · subst hcs
            refine Or.inr ⟨?_, List.mem_cons_self p ps⟩
            show S < p.length
            omega
          · rcases ih [] _ (by simp) cs hcs with h | h
            · exact Or.inl h
            · exact Or.inr ⟨h.1, List.mem_cons_of_mem p h.2⟩

theorem merge_pos_le (S O : Nat) :
    ∀ ps cur pos, ∀ cs ∈ mergeSplits S O ps cur pos, pos ≤ cs.2 := by
  intro ps
  induction ps with
  | nil =>
    intro cur pos cs hcs
    unfold mergeSplits at hcs
    by_cases h : cur = []
    · simp [h] at hcs
    · simp [h] at hcs
      subst hcs
      exact le_refl pos
  | cons p ps ih =>
    intro cur pos cs hcs
    unfold mergeSplits at hcs
    by_cases hb1 : cur.length + p.length ≤ S
    · rw [if_pos hb1] at hcs
      exact ih _ _ cs hcs
    · rw [if_neg hb1] at hcs
      by_cases hb2 : p.length ≤ S
      · rw [if_pos hb2] at hcs
        rcases List.mem_cons.mp hcs with hcs | hcs
        · subst hcs; exact le_refl pos
        · have := ih _ _ cs hcs
          have hwle : min (min O cur.length) (S - p.length) ≤ cur.length := by omega
          omega
      · rw [if_neg hb2] at hcs
        rw [List.mem_append] at hcs
        rcases hcs with hcs | hcs
        · by_cases h3 : cur = []
          · simp [h3] at hcs
          · simp [h3] at hcs
            subst hcs
            exact le_refl pos
        · rcases List.mem_cons.mp hcs with hcs | hcs
          · subst hcs
            simp
          · have := ih _ _ cs hcs
            omega

theorem merge_pairwise (S O : Nat) :
    ∀ ps cur pos,
      List.Pairwise (fun a b : Text × Nat => a.2 ≤ b.2)
        (mergeSplits S O ps cur pos) := by
  intro ps
  induction ps with
  | nil =>
    intro cur pos
    unfold mergeSplits
    by_cases h : cur = [] <;> simp [h]
  | cons p ps ih =>
    intro cur pos
    unfold mergeSplits
    by_cases hb1 : cur.length + p.length ≤ S
    · rw [if_pos hb1]
      exact ih _ _
    · rw [if_neg hb1]
      by_cases hb2 : p.length ≤ S
      · rw [if_pos hb2]
        rw [List.pairwise_cons]
        constructor
        · intro y hy
          have := merge_pos_le S O ps _ _ y hy
          have hwle : min (min O cur.length) (S - p.length) ≤ cur.length := by omega
          omega
        · exact ih _ _
      · rw [if_neg hb2]
        rw [List.pairwise_append]
        refine ⟨?_, ?_, ?_⟩
        · by_cases h3 : cur = [] <;> simp [h3]
        · rw [List.pairwise_cons]
          constructor
          · intro y hy
            have := merge_pos_le S O ps _ _ y hy
            omega
          · exact ih _ _
        · intro a ha b hb
          by_cases h3 : cur = []
          · simp [h3] at ha
          · simp [h3] at ha
            subst ha
            rcases List.mem_cons.mp hb with hb | hb
            · subst hb; simp
            · have := merge_pos_le S O ps _ _ b hb
              simp
              omega

theorem merge_head (S O : Nat) :
    ∀ ps cur pos y, (mergeSplits S O ps cur pos).head? = some y →
      y.2 = pos ∧ ∃ r, y.1 = cur ++ r := by
  intro ps
  induction ps with
  | nil =>
    intro cur pos y hy
    unfold mergeSplits at hy
    by_cases h : cur = []
    · simp [h] at hy
    · simp [h] at hy
      subst hy
      exact ⟨rfl, [], by simp⟩
  | cons p ps ih =>
    intro cur pos y hy
    unfold mergeSplits at hy
    by_cases hb1 : cur.length + p.length ≤ S
    · rw [if_pos hb1] at hy
      obtain ⟨h2, r, h1⟩ := ih _ _ y hy
      exact ⟨h2, p ++ r, by rw [h1, List.append_assoc]⟩
    · rw [if_neg hb1] at hy
      by_cases hb2 : p.length ≤ S
      · rw [if_pos hb2] at hy
        simp at hy
        subst hy
        exact ⟨rfl, [], by simp⟩
      · rw [if_neg hb2] at hy
        by_cases h3 : cur = []
        · simp [h3] at hy
          subst hy
          subst h3
          exact ⟨by simp, p, by simp⟩
        · simp [h3] at hy
          subst hy
          exact ⟨rfl, [], by simp⟩

theorem merge_sliceAt (S O : Nat) (orig : Text) :
    ∀ ps cur pos,
      cur = sliceAt orig pos cur.length →
      ps.flatten = orig.drop (pos + cur.length) →
      ∀ cs ∈ mergeSplits S O ps cur pos,
        cs.1 = sliceAt orig cs.2 cs.1.length := by
  intro ps
  induction ps with
  | nil =>
    intro cur pos h1 h2 cs hcs
    unfold mergeSplits at hcs
    by_cases h : cur = []
    · simp [h] at hcs
    · simp [h] at hcs
      subst hcs
      exact h1
  | cons p ps ih =>
    intro cur pos h1 h2 cs hcs
    have hflat : p ++ ps.flatten = orig.drop (pos + cur.length) := by
      simpa using h2
    have hp : p = sliceAt orig (pos + cur.length) p.length :=
      (sliceAt_of_drop_eq orig p ps.flatten (pos + cur.length) hflat.symm).symm
    have hdrop2 : ps.flatten = orig.drop (pos + cur.length + p.length) := by
      have h := congrArg (List.drop p.length) hflat
      rw [List.drop_left, List.drop_drop] at h
      exact h
    unfold mergeSplits at hcs
    by_cases hb1 : cur.length + p.length ≤ S
    · rw [if_pos hb1] at hcs
      have h1' : cur ++ p = sliceAt orig pos (cur ++ p).length := by
        rw [List.length_append, ← sliceAt_append orig pos cur.length p.length,
          ← h1, ← hp]
      have h2' : ps.flatten = orig.drop (pos + (cur ++ p).length) := by
        rw [hdrop2, List.length_append]
        congr 1
        omega
      exact ih _ _ h1' h2' cs hcs
    · rw [if_neg hb1] at hcs
      by_cases hb2 : p.length ≤ S
      · rw [if_pos hb2] at hcs
        rcases List.mem_cons.mp hcs with hcs | hcs
        · subst hcs
          exact h1
        · have hwle : min (min O cur.length) (S - p.length) ≤ cur.length := by omega
          have hwin := takeRight_sliceAt orig cur pos
            (min (min O cur.length) (S - p.length)) h1 hwle
          have h1' :
              takeRight (min (min O cur.length) (S - p.length)) cur ++ p =
                sliceAt orig (pos + cur.length - min (min O cur.length) (S - p.length))
                  (takeRight (min (min O cur.length) (S - p.length)) cur ++ p).length := by
            rw [List.length_append, takeRight_length]
            have hlenw : cur.length - (cur.length -
                min (min O cur.length) (S - p.length)) =
                min (min O cur.length) (S - p.length) := by omega
            rw [hlenw,
              ← sliceAt_append orig
                (pos + cur.length - min (min O cur.length) (S - p.length))
                (min (min O cur.length) (S - p.length)) p.length]
            have harith :
                pos + cur.length - min (min O cur.length) (S - p.length) +
                  min (min O cur.length) (S - p.length) = pos + cur.length := by
              omega
            rw [harith, ← hp, ← hwin]
          have h2' : ps.flatten =
              orig.drop (pos + cur.length - min (min O cur.length) (S - p.length) +
                (takeRight (min (min O cur.length) (S - p.length)) cur ++ p).length) := by
            rw [hdrop2, List.length_append, takeRight_length]
            congr 1
            omega
          exact ih _ _ h1' h2' cs hcs
      · rw [if_neg hb2] at hcs
        rw [List.mem_append] at hcs
        rcases hcs with hcs | hcs
        · by_cases h3 : cur = []
          · simp [h3] at hcs
          · simp [h3] at hcs
            subst hcs
            exact h1
        · rcases List.mem_cons.mp hcs with hcs | hcs
          · subst hcs
            exact hp
          · have h1' : ([] : Text) = sliceAt orig (pos + cur.length + p.length)
                (List.length ([] : Text)) := by
              simp [sliceAt]
            have h2' : ps.flatten =
                orig.drop (pos + cur.length + p.length + List.length ([] : Text)) := by
              simpa using hdrop2
            exact ih _ _ h1' h2' cs hcs

theorem merge_chain_exact (S O : Nat) (hOS : O < S) :
    ∀ ps cur pos,
      (∀ p ∈ ps, p.length ≤ S - O) → cur.length ≤ S →
      List.Chain' (fun a b : Text × Nat =>
          b.2 + O = a.2 + a.1.length ∧ b.1.take O = takeRight O a.1)
        (mergeSplits S O ps cur pos) := by
  intro ps
  induction ps with
  | nil =>
    intro cur pos _ _
    unfold mergeSplits
    by_cases h : cur = [] <;> simp [h]
  | cons p ps ih =>
    intro cur pos hp hc
    have hpS : p.length ≤ S - O := hp p (List.mem_cons_self p ps)
    unfold mergeSplits
    by_cases hb1 : cur.length + p.length ≤ S
    · rw [if_pos hb1]
      exact ih _ _ (fun q hq => hp q (List.mem_cons_of_mem p hq)) (by simp; omega)
    · have hb2 : p.length ≤ S := by omega
      rw [if_neg hb1, if_pos hb2]
      have hw : min (min O cur.length) (S - p.length) = O := by omega
      rw [hw]
      rw [List.chain'_cons']
      constructor
      · intro y hy
        rw [Option.mem_def] at hy
        obtain ⟨hy2, r, hy1⟩ := merge_head S O ps _ _ y hy
        constructor
        · show y.2 + O = pos + cur.length
          omega
        · show y.1.take O = takeRight O cur
          rw [hy1, List.append_assoc]
          have hlenw : (takeRight O cur).length = O := by
            rw [takeRight_length]; omega
          exact List.take_left' hlenw
      · refine ih _ _ (fun q hq => hp q (List.mem_cons_of_mem p hq)) ?_
        simp [List.length_append, takeRight_length]
        omega

/-! ### Claim theorems about the splitter -/

/-- C1: for every document split with `chunk_size = S`, `chunk_overlap = O`,
`O < S`, every emitted chunk's content length is at most `S`, except a
chunk that is a single atomic piece longer than `S` which every configured
separator returns whole — it is emitted intact rather than truncated. -/
theorem chunk_size_bound (S O : Nat) (seps : List Text) (t : Text) (hO : O < S) :
    ∀ cs ∈ RecursiveCharacterTextSplitter.split_text ⟨S, O, seps⟩ t,
      cs.1.length ≤ S ∨
        (S < cs.1.length ∧ ∀ sep ∈ seps, splitSep sep cs.1 = [cs.1]) := by
  intro cs hcs
  rcases merge_size S O (splitPieces S seps t) [] 0 (by simp) cs hcs with h | h
  · exact Or.inl h
  · exact Or.inr ⟨h.1, splitLevels_oversize S seps [t] cs.1 h.2 h.1⟩

/-- Witness for C1 at a concrete configuration and document. -/
theorem chunk_size_bound_witness :
    (2 : Nat) < 5 ∧
      ∀ cs ∈ RecursiveCharacterTextSplitter.split_text ⟨5, 2, [[' ']]⟩
          ['a', 'a', ' ', 'b', 'b', ' ', 'c', 'c', ' ', 'd', 'd'],
        cs.1.length ≤ 5 ∨
          (5 < cs.1.length ∧ ∀ sep ∈ [[' ']], splitSep sep cs.1 = [cs.1]) :=
  ⟨by decide,
   chunk_size_bound 5 2 [[' ']]
     ['a', 'a', ' ', 'b', 'b', ' ', 'c', 'c', ' ', 'd', 'd'] (by decide)⟩

/-- C2 counterexample: with `chunk_size = 5`, `chunk_overlap = 3` and
separator `" "`, splitting `"aaa bbbb"` yields the consecutive chunks
`"aaa "` (offset 0) and `" bbbb"` (offset 3), which share only one
character, not `min 3 available = 3`: the 3-character suffix of the
earlier chunk differs from the 3-character prefix of the later one,
because the piece `"bbbb"` beginning the later chunk leaves room for only
one character of overlap within the chunk size. -/
theorem chunk_overlap_counterexample :
    RecursiveCharacterTextSplitter.split_text ⟨5, 3, [[' ']]⟩
        ['a', 'a', 'a', ' ', 'b', 'b', 'b', 'b'] =
      [(['a', 'a', 'a', ' '], 0), ([' ', 'b', 'b', 'b', 'b'], 3)] ∧
    ¬ takeRight 3 ['a', 'a', 'a', ' '] =
        (([' ', 'b', 'b', 'b', 'b'] : Text).take 3) := by
  decide

/-- C2 amended: consecutive chunks overlap by exactly `chunk_overlap`
characters wherever enough source text exists, provided every piece
produced by the recursive split is at most `S - O` long (so a full
overlap window always fits within the chunk size): the later chunk starts
exactly `O` characters before the earlier chunk ends, and its length-`O`
prefix equals the earlier chunk's length-`O` suffix. When a piece longer
than `S - O` begins a chunk, the overlap window is shrunk to keep the
chunk within `S`. -/
theorem chunk_overlap_amended (S O : Nat) (seps : List Text) (t : Text)
    (hOS : O < S) (hp : ∀ p ∈ splitPieces S seps t, p.length ≤ S - O) :
    List.Chain' (fun a b : Text × Nat =>
        b.2 + O = a.2 + a.1.length ∧ b.1.take O = takeRight O a.1)
      (RecursiveCharacterTextSplitter.split_text ⟨S, O, seps⟩ t) :=
  merge_chain_exact S O hOS (splitPieces S seps t) [] 0 hp (by simp)

/-- Witness for the amended C2 at a concrete configuration and document. -/
theorem chunk_overlap_amended_witness :
    ((2 : Nat) < 5 ∧
      ∀ p ∈ splitPieces 5 [[' ']]
          ['a', 'a', ' ', 'b', 'b', ' ', 'c', 'c', ' ', 'd', 'd'],
        p.length ≤ 5 - 2) ∧
    List.Chain' (fun a b : Text × Nat =>
        b.2 + 2 = a.2 + a.1.length ∧ b.1.take 2 = takeRight 2 a.1)
      (RecursiveCharacterTextSplitter.split_text ⟨5, 2, [[' ']]⟩
        ['a', 'a', ' ', 'b', 'b', ' ', 'c', 'c', ' ', 'd', 'd']) :=
  ⟨⟨by decide, by decide⟩,
   chunk_overlap_amended 5 2 [[' ']]
     ['a', 'a', ' ', 'b', 'b', ' ', 'c', 'c', ' ', 'd', 'd']
     (by decide) (by decide)⟩

/-- C3: with start-index tracking, every chunk's recorded `start_index`
is an offset at which the original content contains that chunk's text
(the chunk equals the slice of the original content at its start index),
and the start indices are monotonically non-decreasing in emission
order. -/
theorem start_index_spec (S O : Nat) (seps : List Text) (t : Text) :
    (∀ cs ∈ RecursiveCharacterTextSplitter.split_text ⟨S, O, seps⟩ t,
        cs.1 = sliceAt t cs.2 cs.1.length) ∧
      List.Pairwise (fun a b : Text × Nat => a.2 ≤ b.2)
        (RecursiveCharacterTextSplitter.split_text ⟨S, O, seps⟩ t) := by
  constructor
  · intro cs hcs
    refine merge_sliceAt S O t (splitPieces S seps t) [] 0 ?_ ?_ cs hcs
    · simp [sliceAt]
    · simpa using splitLevels_flatten S seps [t]
  · exact merge_pairwise S O _ [] 0

/-- C9: constructing the splitter with `chunk_overlap ≥ chunk_size` is
rejected synchronously with an `InputError`, including the boundary case
`chunk_overlap = chunk_size`; a valid configuration is stored exactly as
supplied, never silently corrected. -/
theorem splitter_overlap_validation (S O : Nat) (seps : List Text) :
    (S ≤ O → mkSplitter S O seps = .error .invalidChunkOverlap) ∧
    (O < S → mkSplitter S O seps = .ok ⟨S, O, seps⟩) := by
  constructor
  · intro h
    unfold mkSplitter
    rw [if_pos h]
  · intro h
    unfold mkSplitter
    rw [if_neg (by omega)]

/-- Witness for C9 at the boundary configuration `1000/1000` and the
notebook configuration `1000/200`. -/
theorem splitter_overlap_validation_witness :
    mkSplitter 1000 1000 [] = .error .invalidChunkOverlap ∧
      mkSplitter 1000 200 [] = .ok ⟨1000, 200, []⟩ :=
  ⟨(splitter_overlap_validation 1000 1000 []).1 (by decide),
   (splitter_overlap_validation 1000 200 []).2 (by decide)⟩

/-! ### Claim theorems about the vector index and the pipeline -/

/-- C4: on a non-empty index, `similarity_search` returns the top `k`
documents from a ranking of all stored entries that is sorted by
non-increasing similarity score with ties broken by insertion position
(earliest-added wins), and the result holds at most `k` documents; the
ranking is a permutation of the scored entries, and everything is a pure
function of the index contents, hence deterministic. -/
theorem similarity_search_spec (vs : InMemoryVectorStore) (q : Text) (k : Nat)
    (h : vs.entries ≠ []) :
    vs.similarity_search q k =
        .ok (((rankedEntries vs q).take k).map (fun e => e.2.2)) ∧
      (((rankedEntries vs q).take k).map (fun e => e.2.2)).length ≤ k ∧
      List.Sorted ranksBefore (rankedEntries vs q) ∧
      (rankedEntries vs q).Perm (scoredEntries vs q) := by
  refine ⟨?_, ?_, ?_, ?_⟩
  · unfold InMemoryVectorStore.similarity_search
    rw [if_neg h]
  · simp only [List.length_map, List.length_take]
    omega
  · exact List.sorted_insertionSort ranksBefore (scoredEntries vs q)
  · exact List.perm_insertionSort ranksBefore (scoredEntries vs q)

/-- Witness for C4 on a concrete two-entry store. -/
theorem similarity_search_spec_witness :
    sampleStore.entries ≠ [] ∧
      sampleStore.similarity_search ['T', 'a'] 2 =
        .ok (((rankedEntries sampleStore ['T', 'a']).take 2).map (fun e => e.2.2)) :=
  ⟨by decide, (similarity_search_spec sampleStore ['T', 'a'] 2 (by decide)).1⟩

/-- C5: a similarity search against an index holding no entries fails
with `IndexError.indexEmpty`, and `invoke` on such a fresh, unindexed
store surfaces that `IndexError` annotated with the `retrieve` node
instead of completing. -/
theorem empty_index_error (env : RagEnv) (vs : InMemoryVectorStore) (q : Text)
    (k : Nat) (h : vs.entries = []) :
    vs.similarity_search q k = .error .indexEmpty ∧
      invoke env vs q = .error ⟨"retrieve", .indexError .indexEmpty⟩ := by
  constructor
  · unfold InMemoryVectorStore.similarity_search
    rw [if_pos h]
  · simp [invoke, retrieve, InMemoryVectorStore.similarity_search, h]

/-- Witness for C5 on the concrete empty store. -/
theorem empty_index_error_witness :
    emptyStore.entries = [] ∧
      (emptyStore.similarity_search ['q'] 4 = .error .indexEmpty ∧
        invoke mockEnv emptyStore ['q'] =
          .error ⟨"retrieve", .indexError .indexEmpty⟩) :=
  ⟨rfl, empty_index_error mockEnv emptyStore ['q'] 4 rfl⟩

/-- C6: the claimed success path does not exist in the program. The
`generate` node of src/05_rag.ipynb evaluates `llm.invoke`, but the
notebook binds the chat model only to the name `model` and never defines
`llm`, so on every populated index `invoke` fails in the generate node
with a `NameError` instead of returning a final state with a non-empty
answer. -/
theorem invoke_generate_name_error (env : RagEnv) (vs : InMemoryVectorStore)
    (q : Text) (h : vs.entries ≠ []) :
    invoke env vs q = .error ⟨"generate", .nameError "llm"⟩ := by
  have hsearch : vs.similarity_search q 4 =
      .ok (((rankedEntries vs q).take 4).map (fun e => e.2.2)) := by
    unfold InMemoryVectorStore.similarity_search
    rw [if_neg h]
  unfold invoke retrieve generate modelBindings
  simp [hsearch]

/-- Witness for C6 at a concrete populated store: the run fails with the
`NameError` for `llm`. -/
theorem invoke_generate_name_error_witness :
    sampleStore.entries ≠ [] ∧
      invoke mockEnv sampleStore ['T'] = .error ⟨"generate", .nameError "llm"⟩ :=
  ⟨by decide, invoke_generate_name_error mockEnv sampleStore ['T'] (by decide)⟩

/-- C7: the claimed two-increment success path does not exist in the
program: on a populated index, step-streaming yields the retrieve node's
partial update and then the error marker carrying the generate node's
`NameError` for the unbound name `llm` — the generate update is never
yielded. -/
theorem stream_updates_name_error (env : RagEnv) (vs : InMemoryVectorStore)
    (q : Text) (h : vs.entries ≠ []) :
    ∃ ctx, stream_updates env vs q =
      [.update (.retrieveUpdate ctx),
       .errorMarker ⟨"generate", .nameError "llm"⟩] := by
  have hsearch : vs.similarity_search q 4 =
      .ok (((rankedEntries vs q).take 4).map (fun e => e.2.2)) := by
    unfold InMemoryVectorStore.similarity_search
    rw [if_neg h]
  refine ⟨((rankedEntries vs q).take 4).map (fun e => e.2.2), ?_⟩
  unfold stream_updates retrieve generate modelBindings
  simp [hsearch]

/-- Witness for C7 at a concrete populated store. -/
theorem stream_updates_name_error_witness :
    sampleStore.entries ≠ [] ∧
      ∃ ctx, stream_updates mockEnv sampleStore ['T'] =
        [.update (.retrieveUpdate ctx),
         .errorMarker ⟨"generate", .nameError "llm"⟩] :=
  ⟨by decide, stream_updates_name_error mockEnv sampleStore ['T'] (by decide)⟩

/-- C8: neither side of the claimed equality is produced by the program:
on a populated index `invoke` never completes (it fails with the
generate node's `NameError` for the unbound name `llm`), and the token
stream carries no text increments — it is the single error marker — so
there is no answer for the concatenation of increments to equal. -/
theorem stream_messages_name_error (env : RagEnv) (vs : InMemoryVectorStore)
    (q : Text) (h : vs.entries ≠ []) :
    invoke env vs q = .error ⟨"generate", .nameError "llm"⟩ ∧
      stream_messages env vs q = [.error ⟨"generate", .nameError "llm"⟩] ∧
      textIncrements (stream_messages env vs q) = [] := by
  have hsearch : vs.similarity_search q 4 =
      .ok (((rankedEntries vs q).take 4).map (fun e => e.2.2)) := by
    unfold InMemoryVectorStore.similarity_search
    rw [if_neg h]
  have hmsg : stream_messages env vs q =
      [.error ⟨"generate", .nameError "llm"⟩] := by
    unfold stream_messages retrieve modelBindings
    simp [hsearch]
  refine ⟨?_, hmsg, ?_⟩
  · unfold invoke retrieve generate modelBindings
    simp [hsearch]
  · rw [hmsg]
    rfl

/-- Witness for C8 at a concrete populated store. -/
theorem stream_messages_name_error_witness :
    sampleStore.entries ≠ [] ∧
      (invoke mockEnv sampleStore ['T'] =
          .error ⟨"generate", .nameError "llm"⟩ ∧
        stream_messages mockEnv sampleStore ['T'] =
          [.error ⟨"generate", .nameError "llm"⟩] ∧
        textIncrements (stream_messages mockEnv sampleStore ['T']) = []) :=
  ⟨by decide, stream_messages_name_error mockEnv sampleStore ['T'] (by decide)⟩
